import Mathlib

/-!
Verification of the symsan AFL++ driver (src/driver/aflpp/symsan.cpp and
src/include/task.h) against its natural-language specification.

The development is a shallow embedding: every definition below is translated
from the C++ source, except where a doc comment starting with
`Modelled from the spec:` marks a part of the repository (ast.h, dfsan.h,
cov.h, the solver back ends) that is not under src/ and is therefore
modelled from the specification text instead.
-/

set_option maxRecDepth 4096
set_option linter.unusedVariables false

/-- AST node kinds of the rgd expression language.
Modelled from the spec: the enumeration is declared in ast.h, which is not
under src/; the spec (section 3) lists exactly these kinds.  The concrete
numeric values are not observable by any claim; `RKind.code` below fixes an
arbitrary numbering for the structural hash. -/
inductive RKind where
  | Bool | Constant | Read | Concat | Extract | ZExt | SExt
  | Add | Sub | UDiv | SDiv | SRem | Shl | LShr | AShr
  | And | Or | Xor
  | Equal | Distinct | Ult | Ule | Ugt | Uge | Slt | Sle | Sgt | Sge
  | LAnd | LOr | LNot
  | Memcmp | MemcmpN
deriving DecidableEq, Repr

/-- Modelled from the spec: an arbitrary distinct numbering of the kinds,
standing in for the numeric enum values of ast.h (used only inside the
structural hash, whose exact value no claim depends on). -/
def RKind.code : RKind → Nat
  | .Bool => 0 | .Constant => 1 | .Read => 2 | .Concat => 3 | .Extract => 4
  | .ZExt => 5 | .SExt => 6 | .Add => 7 | .Sub => 8 | .UDiv => 9
  | .SDiv => 10 | .SRem => 11 | .Shl => 12 | .LShr => 13 | .AShr => 14
  | .And => 15 | .Or => 16 | .Xor => 17 | .Equal => 18 | .Distinct => 19
  | .Ult => 20 | .Ule => 21 | .Ugt => 22 | .Uge => 23 | .Slt => 24
  | .Sle => 25 | .Sgt => 26 | .Sge => 27 | .LAnd => 28 | .LOr => 29
  | .LNot => 30 | .Memcmp => 31 | .MemcmpN => 32

/-- Modelled from the spec: `isRelationalKind` lives in ast.h (not under
src/); the relational kinds are the ten comparison kinds of the opcode
mapping table (spec section 6). -/
def isRelationalKind : RKind → Bool
  | .Equal | .Distinct | .Ult | .Ule | .Ugt | .Uge
  | .Slt | .Sle | .Sgt | .Sge => true
  | _ => false

/-- Modelled from the spec: `negate_cmp` lives in ast.h (not under src/);
the spec (section 4.4) gives the dual table `Equal - Distinct`,
`Ult - Uge`, `Ule - Ugt`, `Slt - Sge`, `Sle - Sgt`.  On non-relational
kinds (which the source asserts never reach it) it is taken as the
identity. -/
def negate_cmp : RKind → RKind
  | .Equal => .Distinct
  | .Distinct => .Equal
  | .Ult => .Uge
  | .Uge => .Ult
  | .Ule => .Ugt
  | .Ugt => .Ule
  | .Slt => .Sge
  | .Sge => .Slt
  | .Sle => .Sgt
  | .Sgt => .Sle
  | k => k

/-- The boolean skeleton produced by `find_roots`: a tree of `LAnd`, `LOr`
and `LNot` nodes over relational leaves; a leaf carries its comparison kind
and the dfsan label of the underlying ICmp (the only AstNode fields `to_nnf`
and `to_dnf` inspect). -/
inductive BExp where
  | leaf (cmp : RKind) (lbl : Nat)
  | lnot (c : BExp)
  | land (l r : BExp)
  | lor (l r : BExp)
deriving DecidableEq, Repr

/-- `to_nnf` from symsan.cpp: pushes negations to the leaves.  Under
negative polarity `LNot` cancels (double negation), `LAnd` and `LOr` swap by
De Morgan, and a relational leaf is replaced by its dual.  Under positive
polarity the node keeps its kind; seeing `LNot` flips the polarity for the
children only (the wrapper node itself is not removed, exactly as in the
source). -/
def to_nnf : Bool → BExp → BExp
  | false, .lnot c => to_nnf true c
  | false, .land l r => .lor (to_nnf false l) (to_nnf false r)
  | false, .lor l r => .land (to_nnf false l) (to_nnf false r)
  | false, .leaf k lbl => .leaf (negate_cmp k) lbl
  | true, .lnot c => .lnot (to_nnf false c)
  | true, .land l r => .land (to_nnf true l) (to_nnf true r)
  | true, .lor l r => .lor (to_nnf true l) (to_nnf true r)
  | true, .leaf k lbl => .leaf k lbl

/-- `to_dnf` from symsan.cpp, with the output vector `formula` passed as an
accumulator exactly as in the source: `LAnd` computes the cartesian
concatenation of the clause sets of the two children into fresh vectors and
appends it to the accumulator (with the source's replace-by-right fallback
when the left clause set is empty); `LOr` appends the clauses of both
children to the accumulator in order; any other node becomes a single
single-leaf clause. -/
def to_dnf : BExp → List (List BExp) → List (List BExp)
  | .land l r, formula =>
    let left := to_dnf l []
    let right := to_dnf r []
    if left.length = 0 then right
    else formula ++ left.flatMap (fun s1 => right.map (fun s2 => s1 ++ s2))
  | .lor l r, formula => to_dnf r (to_dnf l formula)
  | e, formula => formula ++ [[e]]

/-- Truth value of a boolean skeleton under a valuation of its relational
leaves (an input assignment determines each leaf's truth value, so a
valuation of leaves abstracts an input assignment). -/
def evalB (v : RKind → Nat → Bool) : BExp → Bool
  | .leaf k lbl => v k lbl
  | .lnot c => !(evalB v c)
  | .land l r => evalB v l && evalB v r
  | .lor l r => evalB v l || evalB v r

/-- `x` contains no `LNot` node. -/
def noLNot : BExp → Bool
  | .leaf _ _ => true
  | .lnot _ => false
  | .land l r => noLNot l && noLNot r
  | .lor l r => noLNot l && noLNot r

/-- every leaf of `x` carries a relational kind. -/
def relLeaves : BExp → Bool
  | .leaf k _ => isRelationalKind k
  | .lnot c => relLeaves c
  | .land l r => relLeaves l && relLeaves r
  | .lor l r => relLeaves l && relLeaves r

lemma to_dnf_ne_nil : ∀ (e : BExp) (acc : List (List BExp)), to_dnf e acc ≠ [] := by
  intro e
  induction e with
  | leaf k lbl => intro acc; simp [to_dnf]
  | lnot c _ => intro acc; simp [to_dnf]
  | land l r ihl ihr =>
    intro acc
    simp only [to_dnf]
    split
    · exact ihr []
    · intro h
      rcases List.append_eq_nil.mp h with ⟨-, hbind⟩
      rcases List.exists_mem_of_ne_nil _ (ihl []) with ⟨s1, hs1⟩
      rcases List.exists_mem_of_ne_nil _ (ihr []) with ⟨s2, hs2⟩
      have : (s1 ++ s2) ∈ (to_dnf l []).flatMap (fun s1 => (to_dnf r []).map (fun s2 => s1 ++ s2)) := by
        simp only [List.mem_flatMap, List.mem_map]
        exact ⟨s1, hs1, s2, hs2, rfl⟩
      rw [hbind] at this
      exact absurd this (List.not_mem_nil _)
  | lor l r ihl ihr =>
    intro acc
    simp only [to_dnf]
    exact ihr (to_dnf l acc)

lemma to_dnf_acc : ∀ (e : BExp) (acc : List (List BExp)),
    to_dnf e acc = acc ++ to_dnf e [] := by
  intro e
  induction e with
  | leaf k lbl => intro acc; simp [to_dnf]
  | lnot c _ => intro acc; simp [to_dnf]
  | land l r ihl ihr =>
    intro acc
    simp only [to_dnf]
    have hne : ¬ (to_dnf l []).length = 0 := by
      simpa [List.length_eq_zero] using to_dnf_ne_nil l []
    simp [hne]
  | lor l r ihl ihr =>
    intro acc
    simp only [to_dnf]
    rw [ihr (to_dnf l acc), ihr (to_dnf l []), ihl acc, List.append_assoc]

lemma any_const_false {α} (l : List α) : (l.any fun _ => false) = false := by
  induction l <;> simp_all

lemma anyCongr {α} {l : List α} {p q : α → Bool} (h : ∀ x ∈ l, p x = q x) :
    l.any p = l.any q := by
  induction l with
  | nil => rfl
  | cons a t ih =>
    simp only [List.any_cons]
    rw [h a (by simp), ih (fun x hx => h x (by simp [hx]))]

lemma any_and_right {α} (b : Bool) (p : α → Bool) (l : List α) :
    (l.any fun x => p x && b) = (l.any p && b) := by
  cases b
  · simp only [Bool.and_false, any_const_false]
  · simp only [Bool.and_true]

lemma to_dnf_eval (v : RKind → Nat → Bool) :
    ∀ e : BExp, ((to_dnf e []).any fun c => c.all (evalB v)) = evalB v e := by
  intro e
  induction e with
  | leaf k lbl => simp [to_dnf, evalB]
  | lnot c _ => simp [to_dnf, evalB]
  | land l r ihl ihr =>
    have hne : ¬ (to_dnf l []).length = 0 := by
      simpa [List.length_eq_zero] using to_dnf_ne_nil l []
    simp only [to_dnf, hne, if_false, List.nil_append, evalB]
    rw [List.any_flatMap]
    have step : ∀ s1 ∈ to_dnf l [],
        (((to_dnf r []).map fun s2 => s1 ++ s2).any fun c => c.all (evalB v))
          = (s1.all (evalB v) && evalB v r) := by
      intro s1 _
      rw [List.any_map]
      have h2 : ∀ s2 ∈ to_dnf r [],
          ((fun c => c.all (evalB v)) ∘ fun s2 => s1 ++ s2) s2
            = (s1.all (evalB v) && s2.all (evalB v)) := by
        intro s2 _
        simp [Function.comp, List.all_append]
      rw [anyCongr h2]
      cases hs : s1.all (evalB v)
      · simp only [Bool.false_and, any_const_false]
      · simp only [Bool.true_and]
        exact ihr
    rw [anyCongr step, any_and_right, ihl]
  | lor l r ihl ihr =>
    simp only [to_dnf, evalB]
    rw [to_dnf_acc r (to_dnf l []), List.any_append, ihl, ihr]

/-- C1: for every NNF input formula (a tree of LAnd and LOr nodes over
relational leaves) the DNF produced by `to_dnf` is logically equivalent to
the input: a leaf valuation satisfies the formula iff it satisfies at least
one returned clause, each clause read as the conjunction of its leaves; and
the conjunction of two 2-clause disjunctions yields exactly 4 clauses. -/
theorem claim1_to_dnf_equivalent (v : RKind → Nat → Bool) (e : BExp)
    (hn : noLNot e = true) :
    (evalB v e = true ↔ ∃ c ∈ to_dnf e [], c.all (evalB v) = true)
    ∧ (to_dnf (.land (.lor (.leaf .Equal 1) (.leaf .Ult 2))
                     (.lor (.leaf .Sle 3) (.leaf .Distinct 4))) []).length = 4 := by
  constructor
  · rw [← to_dnf_eval v e, List.any_eq_true]
  · rfl

/-- C1 witness: the equivalence instantiated at a concrete valuation and a
concrete two-level NNF formula. -/
theorem claim1_witness :
    (evalB (fun _ _ => true)
        (.land (.leaf RKind.Equal 1) (.lor (.leaf RKind.Ult 2) (.leaf RKind.Sge 3))) = true
      ↔ ∃ c ∈ to_dnf (.land (.leaf RKind.Equal 1)
            (.lor (.leaf RKind.Ult 2) (.leaf RKind.Sge 3))) [],
          c.all (evalB (fun _ _ => true)) = true) :=
  (claim1_to_dnf_equivalent (fun _ _ => true)
    (.land (.leaf RKind.Equal 1) (.lor (.leaf RKind.Ult 2) (.leaf RKind.Sge 3)))
    (by decide)).1

lemma negate_cmp_involutive (k : RKind) : negate_cmp (negate_cmp k) = k := by
  cases k <;> rfl

lemma to_nnf_true_id : ∀ x : BExp, noLNot x = true → to_nnf true x = x := by
  intro x
  induction x with
  | leaf k lbl => intro _; rfl
  | lnot c _ => intro h; exact absurd h (by simp [noLNot])
  | land l r ihl ihr =>
    intro h
    simp only [noLNot, Bool.and_eq_true] at h
    simp [to_nnf, ihl h.1, ihr h.2]
  | lor l r ihl ihr =>
    intro h
    simp only [noLNot, Bool.and_eq_true] at h
    simp [to_nnf, ihl h.1, ihr h.2]

lemma to_nnf_false_noLNot : ∀ x : BExp, noLNot x = true → noLNot (to_nnf false x) = true := by
  intro x
  induction x with
  | leaf k lbl => intro _; rfl
  | lnot c _ => intro h; exact absurd h (by simp [noLNot])
  | land l r ihl ihr =>
    intro h
    simp only [noLNot, Bool.and_eq_true] at h
    simp [to_nnf, noLNot, ihl h.1, ihr h.2]
  | lor l r ihl ihr =>
    intro h
    simp only [noLNot, Bool.and_eq_true] at h
    simp [to_nnf, noLNot, ihl h.1, ihr h.2]

lemma to_nnf_false_false : ∀ x : BExp, noLNot x = true → relLeaves x = true →
    to_nnf false (to_nnf false x) = x := by
  intro x
  induction x with
  | leaf k lbl =>
    intro _ _
    simp [to_nnf, negate_cmp_involutive k]
  | lnot c _ => intro h _; exact absurd h (by simp [noLNot])
  | land l r ihl ihr =>
    intro h hr
    simp only [noLNot, Bool.and_eq_true] at h
    simp only [relLeaves, Bool.and_eq_true] at hr
    simp [to_nnf, ihl h.1 hr.1, ihr h.2 hr.2]
  | lor l r ihl ihr =>
    intro h hr
    simp only [noLNot, Bool.and_eq_true] at h
    simp only [relLeaves, Bool.and_eq_true] at hr
    simp [to_nnf, ihl h.1 hr.1, ihr h.2 hr.2]

/-- C2 counterexample: on the boolean-skeleton tree `LNot (Equal-leaf)` —
a tree `find_roots` produces, e.g. from an `x ⊕ 1` lowering of a negation —
`to_nnf(true, ·)` keeps the `LNot` wrapper while negating beneath it, so it
is not idempotent, applying `to_nnf(false, ·)` twice differs from
`to_nnf(true, ·)` once, and the result still contains an `LNot` node. -/
theorem claim2_counterexample :
    to_nnf true (to_nnf true (.lnot (.leaf RKind.Equal 7)))
        ≠ to_nnf true (.lnot (.leaf RKind.Equal 7))
    ∧ to_nnf false (to_nnf false (.lnot (.leaf RKind.Equal 7)))
        ≠ to_nnf true (.lnot (.leaf RKind.Equal 7))
    ∧ noLNot (to_nnf true (.lnot (.leaf RKind.Equal 7))) = false
    ∧ relLeaves (.lnot (.leaf RKind.Equal 7)) = true := by
  refine ⟨by decide, by decide, by decide, by decide⟩

/-- C2 amended: for boolean-skeleton trees that are free of `LNot`
(LAnd/LOr over relational leaves), `to_nnf(true, ·)` is the identity and
hence idempotent, `to_nnf(false, ·)` applied twice equals `to_nnf(true, ·)`
applied once, and the result of `to_nnf` contains no `LNot`.  On trees that
do contain `LNot` the three properties fail (see the counterexample):
under positive polarity the source negates below an `LNot` node but keeps
the wrapper node itself. -/
theorem claim2_amended (x : BExp) (hn : noLNot x = true) (hr : relLeaves x = true) :
    to_nnf true (to_nnf true x) = to_nnf true x
    ∧ to_nnf false (to_nnf false x) = to_nnf true x
    ∧ noLNot (to_nnf true x) = true
    ∧ noLNot (to_nnf false x) = true := by
  refine ⟨?_, ?_, ?_, ?_⟩
  · rw [to_nnf_true_id x hn, to_nnf_true_id x hn]
  · rw [to_nnf_false_false x hn hr, to_nnf_true_id x hn]
  · rw [to_nnf_true_id x hn]; exact hn
  · exact to_nnf_false_noLNot x hn

/-- C2 witness: the amended statement instantiated at a concrete LNot-free
skeleton. -/
theorem claim2_witness :
    to_nnf true (to_nnf true (.land (.leaf RKind.Ult 1) (.lor (.leaf RKind.Equal 2) (.leaf RKind.Sge 3))))
        = to_nnf true (.land (.leaf RKind.Ult 1) (.lor (.leaf RKind.Equal 2) (.leaf RKind.Sge 3)))
    ∧ to_nnf false (to_nnf false (.land (.leaf RKind.Ult 1) (.lor (.leaf RKind.Equal 2) (.leaf RKind.Sge 3))))
        = to_nnf true (.land (.leaf RKind.Ult 1) (.lor (.leaf RKind.Equal 2) (.leaf RKind.Sge 3)))
    ∧ noLNot (to_nnf true (.land (.leaf RKind.Ult 1) (.lor (.leaf RKind.Equal 2) (.leaf RKind.Sge 3)))) = true
    ∧ noLNot (to_nnf false (.land (.leaf RKind.Ult 1) (.lor (.leaf RKind.Equal 2) (.leaf RKind.Sge 3)))) = true :=
  claim2_amended
    (.land (.leaf RKind.Ult 1) (.lor (.leaf RKind.Equal 2) (.leaf RKind.Sge 3)))
    (by decide) (by decide)

/-- Dfsan opcodes.  Modelled from the spec: dfsan.h is not under src/; the
opcode names and the closed mapping table are given in spec section 6.  The
exact numeric encodings are not observable: `symsan.cpp` only compares
opcodes for equality and looks them up in `OP_MAP`. -/
inductive DOp where
  | dterm
  | dload
  | dextract | dtrunc | dzext | dsext
  | dadd | dsub | dudiv | dsdiv | dsrem | dshl | dlshr | dashr
  | dand | dor | dxor
  | dconcat
  | dicmpeq | dicmpneq | dicmpugt | dicmpuge | dicmpult | dicmpule
  | dicmpsgt | dicmpsge | dicmpslt | dicmpsle
deriving DecidableEq, Repr

/-- `(op & 0xff) == __dfsan::ICmp`. -/
def DOp.isICmp : DOp → Bool
  | .dicmpeq | .dicmpneq | .dicmpugt | .dicmpuge | .dicmpult | .dicmpule
  | .dicmpsgt | .dicmpsge | .dicmpslt | .dicmpsle => true
  | _ => false

/-- One record of the shared-memory label table (`dfsan_label_info`):
operand labels `l1`, `l2`, immediate operand values `op1`, `op2`, the
opcode and the produced bit width. -/
structure LabelInfo where
  op : DOp
  size : Nat
  l1 : Nat
  l2 : Nat
  op1 : Nat
  op2 : Nat
deriving DecidableEq, Repr

def defaultInfo : LabelInfo := ⟨.dterm, 0, 0, 0, 0, 0⟩

/-- `CONST_OFFSET`: the smallest legal label (spec section 6). -/
def CONST_OFFSET : Nat := 1

/-- Modelled from the spec: `kInitializingLabel` is a reserved, always
invalid label (dfsan.h is not under src/); represented as the largest
32-bit value, out of reach of all tables used here. -/
def kInitializingLabel : Nat := 4294967295

/-- `RET_OFFSET` from task.h: the first two slots of a task's argument
array are reserved for the comparison operands. -/
def RET_OFFSET : Nat := 2

/-- Modelled from the spec: `rgd::xxhash` lives in ast.h (not under src/);
the spec (section 4.2) allows any high-quality non-cryptographic 32-bit
3-word mix.  No claim depends on the concrete mixing function. -/
def xxhash (a b c : Nat) : Nat :=
  (a * 2654435761 + b * 2246822519 + c * 3266489917 + 374761393) % 4294967296

/-- The lifted AST (`rgd::AstNode` as used by the driver): kind, bit width,
originating label, index (read offset, extract offset, or constant slot),
structural hash and children. -/
inductive RNode where
  | node (kind : RKind) (bits : Nat) (label : Nat) (index : Nat) (hash : Nat)
         (children : List RNode)

def RNode.kind : RNode → RKind
  | .node k _ _ _ _ _ => k

def RNode.bits : RNode → Nat
  | .node _ b _ _ _ _ => b

def RNode.hash : RNode → Nat
  | .node _ _ _ _ h _ => h

/-- `ast->set_kind(...)` on the root node. -/
def RNode.withKind (k : RKind) : RNode → RNode
  | .node _ b l i h c => .node k b l i h c

def defaultNode : RNode := .node RKind.Bool 0 0 0 0 []

/-- `rgd::Constraint` (task.h) together with the `comparison` tag that
symsan.cpp writes on it: the lifted AST, the offset-to-local-slot map (an
ordered map in the source, kept sorted by offset here), the argument
vector of `(is_symbolic, value_or_placeholder)` pairs, the initial bytes,
the shape map, the atoi map and the number of constants. -/
structure Constraint where
  ast : RNode
  comparison : RKind
  local_map : List (Nat × Nat)
  input_args : List (Bool × Nat)
  inputs : List (Nat × Nat)
  shapes : List (Nat × Nat)
  atoi_info : List (Nat × (Nat × Nat × Nat))
  const_num : Nat

def emptyConstraint : Constraint := ⟨defaultNode, RKind.Bool, [], [], [], [], [], 0⟩

/-- insertion into an ordered map (`std::map` keyed by offset). -/
def insertSorted (k v : Nat) : List (Nat × Nat) → List (Nat × Nat)
  | [] => [(k, v)]
  | (k0, v0) :: rest =>
    if k < k0 then (k, v) :: (k0, v0) :: rest
    else (k0, v0) :: insertSorted k v rest

/-- overwriting insertion into an unordered map (`operator[]` assignment). -/
def setAssoc {β : Type} (k : Nat) (v : β) : List (Nat × β) → List (Nat × β)
  | [] => [(k, v)]
  | (k0, v0) :: rest => if k = k0 then (k, v) :: rest else (k0, v0) :: setAssoc k v rest

/-- `map_arg` (symsan.cpp): one loop iteration per byte of the read.  On
first sight of an offset a fresh local slot (the current size of
`input_args`) is recorded in `local_map`, the initial byte in `inputs`, and
a symbolic placeholder is appended to `input_args`.  The first byte records
the group length in `shapes` and seeds the hash; subsequent bytes record
shape 0. -/
def map_arg_go (buf : List Nat) (length : Nat) :
    Nat → Nat → Nat → Nat → Constraint → Nat × Constraint
  | 0, _, _, hash, cons => (hash, cons)
  | rem+1, i, offset, hash, cons =>
    let val := buf.getD offset 0
    let found := cons.local_map.lookup offset
    let arg_index := match found with
      | none => cons.input_args.length
      | some ai => ai
    let cons1 := match found with
      | none =>
        { cons with
            inputs := cons.inputs ++ [(offset, val)],
            local_map := insertSorted offset cons.input_args.length cons.local_map,
            input_args := cons.input_args ++ [(true, 0)] }
      | some _ => cons
    let hash1 := if i = 0 then xxhash (length * 8) (RKind.code .Read) arg_index else hash
    let cons2 := { cons1 with shapes := setAssoc offset (if i = 0 then length else 0) cons1.shapes }
    map_arg_go buf length rem (i+1) (offset+1) hash1 cons2

def map_arg (buf : List Nat) (offset length : Nat) (cons : Constraint) : Nat × Constraint :=
  map_arg_go buf length length 0 offset 0 cons

/-- the constant-operand case of `do_uta_rel`: append `(false, value)` to
`input_args` and bump `const_num`. -/
def pushConst (v : Nat) (c : Constraint) : Constraint :=
  { c with input_args := c.input_args ++ [(false, v)], const_num := c.const_num + 1 }

/-- the `OP_MAP` table from symsan.cpp (terminal and Load are absent, as in
the source, where they are handled before the lookup). -/
def OP_MAP : DOp → Option RKind
  | .dextract => some .Extract
  | .dtrunc => some .Extract
  | .dconcat => some .Concat
  | .dzext => some .ZExt
  | .dsext => some .SExt
  | .dadd => some .Add
  | .dsub => some .Sub
  | .dudiv => some .UDiv
  | .dsdiv => some .SDiv
  | .dsrem => some .SRem
  | .dshl => some .Shl
  | .dlshr => some .LShr
  | .dashr => some .AShr
  | .dand => some .And
  | .dor => some .Or
  | .dxor => some .Xor
  | .dicmpeq => some .Equal
  | .dicmpneq => some .Distinct
  | .dicmpugt => some .Ugt
  | .dicmpuge => some .Uge
  | .dicmpult => some .Ult
  | .dicmpule => some .Ule
  | .dicmpsgt => some .Sgt
  | .dicmpsge => some .Sge
  | .dicmpslt => some .Slt
  | .dicmpsle => some .Sle
  | .dterm => none
  | .dload => none

/-- the constant child built by `do_uta_rel` for an operand label below
`CONST_OFFSET`: for a Concat the constant width is the node width minus the
width of the other operand. -/
def constChild (tbl : Nat → LabelInfo) (info : LabelInfo) (otherL v : Nat)
    (c : Constraint) : RNode × Constraint :=
  let sz := if info.op = DOp.dconcat then info.size - (tbl otherL).size else info.size
  let ai := c.input_args.length
  (.node .Constant sz 0 ai (xxhash sz (RKind.code .Constant) ai) [], pushConst v c)

/-- `do_uta_rel` (symsan.cpp): simultaneous AST construction and argument
mapping, with the within-constraint visited set threaded through (a child
label is inserted by its parent after the recursive call returns, exactly
as in the source).  The C++ assertions (read in bounds, Concat constant
with a symbolic sibling) and the infeasible unbounded recursion are
modelled as `none`; `fuel` is structural fuel, irrelevant on the acyclic
label graphs the tracer produces. -/
def do_uta_rel (tbl : Nat → LabelInfo) (buf : List Nat) (bs : Nat) :
    Nat → Nat → Constraint → List Nat → Option (RNode × Constraint × List Nat)
  | 0, _, _, _ => none
  | fuel+1, label, cons, visited =>
    if label < CONST_OFFSET ∨ label = kInitializingLabel then none
    else
      let info := tbl label
      if visited.contains label then
        some (.node RKind.Bool info.size label 0 0 [], cons, visited)
      else if info.op = DOp.dterm then
        if info.op1 < bs then
          let r := map_arg buf info.op1 1 cons
          some (.node .Read 8 label info.op1 r.1 [], r.2, visited)
        else none
      else if info.op = DOp.dload then
        let offset := (tbl info.l1).op1
        if offset + info.l2 ≤ bs then
          let r := map_arg buf offset info.l2 cons
          some (.node .Read (info.l2 * 8) label offset r.1 [], r.2, visited)
        else none
      else
        match OP_MAP info.op with
        | none => none
        | some kind =>
          let leftStep : Option (RNode × Constraint × List Nat) :=
            if CONST_OFFSET ≤ info.l1 then
              match do_uta_rel tbl buf bs fuel info.l1 cons visited with
              | none => none
              | some (ln, c1, v1) => some (ln, c1, info.l1 :: v1)
            else if info.op = DOp.dconcat ∧ info.l2 < CONST_OFFSET then none
            else
              let rc := constChild tbl info info.l2 info.op1 cons
              some (rc.1, rc.2, visited)
          match leftStep with
          | none => none
          | some (left, c1, v1) =>
            if info.op = DOp.dzext ∨ info.op = DOp.dsext
               ∨ info.op = DOp.dextract ∨ info.op = DOp.dtrunc then
              some (.node kind info.size label
                      (if info.op = DOp.dextract then info.op2 else 0)
                      (xxhash info.size (RKind.code kind) left.hash) [left], c1, v1)
            else
              let rightStep : Option (RNode × Constraint × List Nat) :=
                if CONST_OFFSET ≤ info.l2 then
                  match do_uta_rel tbl buf bs fuel info.l2 c1 v1 with
                  | none => none
                  | some (rn, c2, v2) => some (rn, c2, info.l2 :: v2)
                else if info.op = DOp.dconcat ∧ info.l1 < CONST_OFFSET then none
                else
                  let rc := constChild tbl info info.l1 info.op2 c1
                  some (rc.1, rc.2, v1)
              match rightStep with
              | none => none
              | some (right, c2, v2) =>
                let hk := if isRelationalKind kind = true then RKind.Bool else kind
                some (.node kind info.size label 0
                        (xxhash left.hash ((RKind.code hk) * 65536 + info.size) right.hash)
                        [left, right], c2, v2)

/-- `parse_constraint` (symsan.cpp): requires an ICmp root (the source
assertion), runs `do_uta_rel` on a fresh constraint and a fresh visited
set, and stores the produced root AST. -/
def parse_constraint (tbl : Nat → LabelInfo) (buf : List Nat) (bs fuel label : Nat) :
    Option Constraint :=
  if (tbl label).op.isICmp = true then
    match do_uta_rel tbl buf bs fuel label emptyConstraint [] with
    | none => none
    | some (root, cons, _) => some { cons with ast := root }
  else none

/-- `strip_zext` (symsan.cpp), verbatim: the loop variable is the label
info pointer; after stepping `info` to the operand's record, a 1-bit
operand makes the function return `info->l1` — which at that point is the
first operand OF the 1-bit value, not the 1-bit value's own label.  The
original label is returned when the loop exits normally.  `fuel` bounds the
loop (a cyclic table would loop forever in the source). -/
def strip_zext_go (tbl : Nat → LabelInfo) : Nat → LabelInfo → Nat → Nat
  | 0, _, label => label
  | fuel+1, info, label =>
    if info.op = DOp.dzext then
      let inner := tbl info.l1
      if inner.size = 1 then inner.l1
      else strip_zext_go tbl fuel inner label
    else label

def strip_zext (tbl : Nat → LabelInfo) (fuel label : Nat) : Nat :=
  strip_zext_go tbl fuel (tbl label) label

/-- label table for the `strip_zext` scenario: label 1 an input byte,
label 2 an 8-bit load of it, label 3 the 1-bit comparison
`load(input[0]) == 5`, label 4 the 8-bit zero-extension of label 3. -/
def tbl9 : Nat → LabelInfo := fun n =>
  if n = 1 then ⟨.dterm, 8, 0, 0, 0, 0⟩
  else if n = 2 then ⟨.dload, 8, 1, 0, 1, 0⟩
  else if n = 3 then ⟨.dicmpeq, 1, 2, 0, 0, 5⟩
  else if n = 4 then ⟨.dzext, 8, 3, 0, 0, 0⟩
  else defaultInfo

/-- C9: the claim says `strip_zext` returns the label of the innermost
1-bit operand of a ZExt chain.  The code is right per the claim on the
no-ZExt side (label returned unchanged), but on the ZExt side it returns
the 1-bit operand's own first operand instead: for label 4 = ZExt(label 3)
with label 3 a 1-bit ICmp whose first operand is label 2, the source
returns label 2 (an 8-bit load) where the claim (and the callers, which
assert that the result parses to a 1-bit boolean) require label 3. -/
theorem claim9_strip_zext_bug :
    strip_zext tbl9 16 4 = 2
    ∧ (tbl9 4).op = DOp.dzext ∧ (tbl9 4).l1 = 3
    ∧ (tbl9 3).size = 1 ∧ (tbl9 3).l1 = 2
    ∧ (2 : Nat) ≠ 3
    ∧ strip_zext tbl9 16 3 = 3 := by
  refine ⟨rfl, rfl, rfl, rfl, rfl, by decide, rfl⟩

/-- label table for the single-byte equality constraint
`input[0] == 5`: label 1 the input byte at offset 0, label 2 the
comparison of label 1 with the constant 5. -/
def tbl0 : Nat → LabelInfo := fun n =>
  if n = 1 then ⟨.dterm, 8, 0, 0, 0, 0⟩
  else if n = 2 then ⟨.dicmpeq, 1, 1, 0, 0, 5⟩
  else defaultInfo

def buf0 : List Nat := [42]

lemma lookup_eq_none_iff {β : Type} (l : List (Nat × β)) (k : Nat) :
    l.lookup k = none ↔ k ∉ l.map Prod.fst := by
  induction l with
  | nil => simp [List.lookup]
  | cons a rest ih =>
    rcases a with ⟨k0, v0⟩
    by_cases hk : k = k0
    · subst hk
      simp [List.lookup]
    · have hb : (k == k0) = false := beq_eq_false_iff_ne.mpr hk
      simp only [List.lookup, hb, List.map_cons, List.mem_cons, ih]
      constructor
      · intro h hmem
        rcases hmem with h1 | h1
        · exact hk h1
        · exact h h1
      · intro h h1
        exact h (Or.inr h1)

lemma lookup_mem {β : Type} (l : List (Nat × β)) (k : Nat) (b : β)
    (h : l.lookup k = some b) : (k, b) ∈ l := by
  induction l with
  | nil => simp [List.lookup] at h
  | cons a rest ih =>
    rcases a with ⟨k0, v0⟩
    by_cases hk : k = k0
    · subst hk
      have hb : (k == k) = true := beq_self_eq_true k
      simp only [List.lookup, hb, Option.some.injEq] at h
      subst h
      exact List.mem_cons_self _ _
    · have hb : (k == k0) = false := beq_eq_false_iff_ne.mpr hk
      simp only [List.lookup, hb] at h
      exact List.mem_cons_of_mem _ (ih h)

lemma insertSorted_perm (k v : Nat) (l : List (Nat × Nat)) :
    List.Perm (insertSorted k v l) ((k, v) :: l) := by
  induction l with
  | nil => rfl
  | cons a rest ih =>
    rcases a with ⟨k0, v0⟩
    simp only [insertSorted]
    split
    · rfl
    · exact ((ih.cons (k0, v0)).trans (List.Perm.swap (k, v) (k0, v0) rest))

lemma mem_insertSorted {p : Nat × Nat} {k v : Nat} {l : List (Nat × Nat)} :
    p ∈ insertSorted k v l ↔ p = (k, v) ∨ p ∈ l := by
  rw [(insertSorted_perm k v l).mem_iff, List.mem_cons]

lemma length_insertSorted (k v : Nat) (l : List (Nat × Nat)) :
    (insertSorted k v l).length = l.length + 1 := by
  rw [(insertSorted_perm k v l).length_eq, List.length_cons]

lemma map_insertSorted_perm {β : Type} (f : Nat × Nat → β) (k v : Nat) (l : List (Nat × Nat)) :
    List.Perm ((insertSorted k v l).map f) (f (k, v) :: l.map f) :=
  (insertSorted_perm k v l).map f

lemma getD_append_lt {α : Type} (l l2 : List α) (d : α) (i : Nat) (h : i < l.length) :
    (l ++ l2).getD i d = l.getD i d := by
  induction l generalizing i with
  | nil => simp at h
  | cons a rest ih =>
    cases i with
    | zero => rfl
    | succ j =>
      simp only [List.cons_append, List.getD_cons_succ]
      exact ih j (Nat.lt_of_succ_lt_succ h)

lemma getD_snoc_len {α : Type} (l : List α) (x d : α) :
    (l ++ [x]).getD l.length d = x := by
  induction l with
  | nil => rfl
  | cons a rest ih => simp [ih]

/-- The constraint invariant established by the lifter: `input_args` has
exactly `|local_map| + const_num` entries; the values of `local_map` are
pairwise distinct, in range, and are exactly the positions of the symbolic
entries of `input_args`; keys of `local_map` and `inputs` coincide and are
duplicate-free. -/
def ConsInv (c : Constraint) : Prop :=
  c.input_args.length = c.local_map.length + c.const_num
  ∧ (∀ p ∈ c.local_map, p.2 < c.input_args.length)
  ∧ (c.local_map.map Prod.snd).Nodup
  ∧ (c.local_map.map Prod.fst).Nodup
  ∧ (∀ i, i < c.input_args.length →
        ((c.input_args.getD i (false, 0)).1 = true ↔ i ∈ c.local_map.map Prod.snd))
  ∧ (∀ o ∈ c.local_map.map Prod.fst, o ∈ c.inputs.map Prod.fst)
  ∧ (∀ o ∈ c.inputs.map Prod.fst, o ∈ c.local_map.map Prod.fst)
  ∧ (c.inputs.map Prod.fst).Nodup

lemma consInv_empty : ConsInv emptyConstraint := by
  refine ⟨rfl, ?_, ?_, ?_, ?_, ?_, ?_, ?_⟩ <;> simp [emptyConstraint]

lemma not_mem_values_of_ge {c : Constraint} (h : ConsInv c) {i : Nat}
    (hi : c.input_args.length ≤ i) : i ∉ c.local_map.map Prod.snd := by
  intro hmem
  rcases List.mem_map.mp hmem with ⟨p, hp, hpi⟩
  have := h.2.1 p hp
  omega

lemma consInv_fresh {c : Constraint} (offset val : Nat)
    (hnone : c.local_map.lookup offset = none) (h : ConsInv c) :
    ConsInv { c with
        inputs := c.inputs ++ [(offset, val)],
        local_map := insertSorted offset c.input_args.length c.local_map,
        input_args := c.input_args ++ [(true, 0)] } := by
  obtain ⟨h1, h2, h3, h4, h5, h6, h7, h8⟩ := h
  have hkey : offset ∉ c.local_map.map Prod.fst := (lookup_eq_none_iff _ _).mp hnone
  have hkeyi : offset ∉ c.inputs.map Prod.fst := fun hmem => hkey (h7 offset hmem)
  have hperm2 := map_insertSorted_perm Prod.snd offset c.input_args.length c.local_map
  have hperm1 := map_insertSorted_perm Prod.fst offset c.input_args.length c.local_map
  refine ⟨?_, ?_, ?_, ?_, ?_, ?_, ?_, ?_⟩
  · simp only [List.length_append, List.length_singleton, length_insertSorted]
    omega
  · intro p hp
    rcases mem_insertSorted.mp hp with hh | hh
    · subst hh
      simp only [List.length_append, List.length_singleton]
      omega
    · have := h2 p hh
      simp only [List.length_append, List.length_singleton]
      omega
  · refine hperm2.nodup_iff.mpr ?_
    refine List.nodup_cons.mpr ⟨?_, h3⟩
    exact not_mem_values_of_ge ⟨h1, h2, h3, h4, h5, h6, h7, h8⟩ (le_refl _)
  · refine hperm1.nodup_iff.mpr ?_
    exact List.nodup_cons.mpr ⟨hkey, h4⟩
  · intro i hi
    simp only [List.length_append, List.length_singleton] at hi
    rw [hperm2.mem_iff, List.mem_cons]
    rcases Nat.lt_or_ge i c.input_args.length with hlt | hge
    · rw [getD_append_lt _ _ _ _ hlt]
      have : ¬ i = c.input_args.length := by omega
      simp only [this, false_or]
      exact h5 i hlt
    · have heq : i = c.input_args.length := by omega
      subst heq
      rw [getD_snoc_len]
      simp only [true_iff, eq_self_iff_true, true_or]
  · intro o ho
    rw [hperm1.mem_iff, List.mem_cons] at ho
    simp only [List.map_append, List.map_cons, List.map_nil, List.mem_append,
      List.mem_singleton]
    rcases ho with hh | hh
    · right; exact hh
    · left; exact h6 o hh
  · intro o ho
    simp only [List.map_append, List.map_cons, List.map_nil, List.mem_append,
      List.mem_singleton] at ho
    rw [hperm1.mem_iff, List.mem_cons]
    rcases ho with hh | hh
    · right; exact h7 o hh
    · left; exact hh
  · simp only [List.map_append, List.map_cons, List.map_nil]
    rw [List.nodup_append]
    exact ⟨h8, List.nodup_singleton _, by simpa using hkeyi⟩

lemma consInv_pushConst {c : Constraint} (v : Nat) (h : ConsInv c) :
    ConsInv (pushConst v c) := by
  obtain ⟨h1, h2, h3, h4, h5, h6, h7, h8⟩ := h
  refine ⟨?_, ?_, h3, h4, ?_, h6, h7, h8⟩
  · simp only [pushConst, List.length_append, List.length_singleton]
    omega
  · intro p hp
    have := h2 p hp
    simp only [pushConst, List.length_append, List.length_singleton]
    omega
  · intro i hi
    simp only [pushConst, List.length_append, List.length_singleton] at hi
    rcases Nat.lt_or_ge i c.input_args.length with hlt | hge
    · simp only [pushConst]
      rw [getD_append_lt _ _ _ _ hlt]
      exact h5 i hlt
    · have heq : i = c.input_args.length := by omega
      subst heq
      simp only [pushConst]
      rw [getD_snoc_len]
      simp only [Bool.false_eq_true, false_iff]
      exact not_mem_values_of_ge ⟨h1, h2, h3, h4, h5, h6, h7, h8⟩ (le_refl _)

lemma consInv_shapes {c : Constraint} (s : List (Nat × Nat)) (h : ConsInv c) :
    ConsInv { c with shapes := s } := h

lemma map_arg_go_inv (buf : List Nat) (length : Nat) :
    ∀ (rem i offset hash : Nat) (c : Constraint), ConsInv c →
      ConsInv (map_arg_go buf length rem i offset hash c).2 := by
  intro rem
  induction rem with
  | zero => intro i offset hash c h; exact h
  | succ n ih =>
    intro i offset hash c h
    simp only [map_arg_go]
    cases hfound : c.local_map.lookup offset with
    | none =>
      simp only [hfound]
      exact ih _ _ _ _ (consInv_shapes _ (consInv_fresh offset _ hfound h))
    | some ai =>
      simp only [hfound]
      exact ih _ _ _ _ (consInv_shapes _ h)

lemma map_arg_inv (buf : List Nat) (offset length : Nat) (c : Constraint)
    (h : ConsInv c) : ConsInv (map_arg buf offset length c).2 :=
  map_arg_go_inv buf length length 0 offset 0 c h

lemma do_uta_rel_inv (tbl : Nat → LabelInfo) (buf : List Nat) (bs : Nat) :
    ∀ (fuel label : Nat) (c : Constraint) (vis : List Nat)
      (out : RNode × Constraint × List Nat), ConsInv c →
      do_uta_rel tbl buf bs fuel label c vis = some out → ConsInv out.2.1 := by
  intro fuel
  induction fuel with
  | zero =>
    intro label c vis out h heq
    simp [do_uta_rel] at heq
  | succ n ih =>
    intro label c vis out h heq
    simp only [do_uta_rel] at heq
    split at heq
    · exact absurd heq (by simp)
    · split at heq
      · cases heq; exact h
      · split at heq
        · split at heq
          · cases heq; exact map_arg_inv _ _ _ _ h
          · exact absurd heq (by simp)
        · split at heq
          · split at heq
            · cases heq; exact map_arg_inv _ _ _ _ h
            · exact absurd heq (by simp)
          · split at heq
            · exact absurd heq (by simp)
            · split at heq
              · exact absurd heq (by simp)
              · rename_i kind hk left c1 v1 hleft
                have hc1 : ConsInv c1 := by
                  split at hleft
                  · split at hleft
                    · exact absurd hleft (by simp)
                    · rename_i ln c10 v10 hrec
                      cases hleft
                      exact ih _ _ _ _ h hrec
                  · split at hleft
                    · exact absurd hleft (by simp)
                    · cases hleft
                      exact consInv_pushConst _ h
                split at heq
                · cases heq; exact hc1
                · split at heq
                  · exact absurd heq (by simp)
                  · rename_i rightn c2 v2 hright
                    have hc2 : ConsInv c2 := by
                      split at hright
                      · split at hright
                        · exact absurd hright (by simp)
                        · rename_i rn c20 v20 hrec2
                          cases hright
                          exact ih _ _ _ _ hc1 hrec2
                      · split at hright
                        · exact absurd hright (by simp)
                        · cases hright
                          exact consInv_pushConst _ hc1
                    cases heq
                    exact hc2

/-- C3 counterexample: for the lifted constraint of `input[0] == 5` the
single local index is 0, not `RET_OFFSET = 2`: the values of `local_map`
are positions inside `input_args` (interleaved with constant slots,
starting at 0), not the contiguous range `[RET_OFFSET, RET_OFFSET + n)`
the claim states. -/
theorem claim3_counterexample :
    (parse_constraint tbl0 buf0 1 10 2).map (fun c => c.local_map.map Prod.snd)
        = some [0]
    ∧ ([0] : List Nat) ≠ List.range' RET_OFFSET 1
    ∧ (parse_constraint tbl0 buf0 1 10 2).map (fun c => c.local_map.length) = some 1 := by
  refine ⟨rfl, by decide, rfl⟩

/-- C3 amended: for every Constraint produced by the lifter, `input_args`
has size `|local_map| + const_num`, and the values of `local_map` are
pairwise distinct indices in `[0, |input_args|)` that are exactly the
positions of the symbolic entries of `input_args` — each local index
occurs exactly once, but the range starts at 0 and is interleaved with the
constant slots, not the contiguous range `[RET_OFFSET=2, ...)` of the
original claim (the two reserved slots exist only in the task-level
`scratch_args` array). -/
theorem claim3_amended (tbl : Nat → LabelInfo) (buf : List Nat)
    (bs fuel label : Nat) (c : Constraint)
    (h : parse_constraint tbl buf bs fuel label = some c) :
    c.input_args.length = c.local_map.length + c.const_num
    ∧ (c.local_map.map Prod.snd).Nodup
    ∧ (∀ p ∈ c.local_map, p.2 < c.input_args.length)
    ∧ (∀ i, i < c.input_args.length →
        ((c.input_args.getD i (false, 0)).1 = true ↔ i ∈ c.local_map.map Prod.snd)) := by
  simp only [parse_constraint] at h
  split at h
  · rcases hrec : do_uta_rel tbl buf bs fuel label emptyConstraint [] with - | out
    · rw [hrec] at h; exact absurd h (by simp)
    · rw [hrec] at h
      rcases out with ⟨root, cons, vis⟩
      have hinv : ConsInv cons :=
        do_uta_rel_inv tbl buf bs fuel label emptyConstraint [] (root, cons, vis)
          consInv_empty hrec
    -- the stored AST does not change the argument bookkeeping
      cases h
      exact ⟨hinv.1, hinv.2.2.1, hinv.2.1, hinv.2.2.2.2.1⟩
  · exact absurd h (by simp)

/-- C3 witness: the amended statement evaluated on the concrete
`input[0] == 5` constraint. -/
theorem claim3_witness :
    ((parse_constraint tbl0 buf0 1 10 2).getD emptyConstraint).input_args.length
      = ((parse_constraint tbl0 buf0 1 10 2).getD emptyConstraint).local_map.length
        + ((parse_constraint tbl0 buf0 1 10 2).getD emptyConstraint).const_num :=
  (claim3_amended tbl0 buf0 1 10 2
    ((parse_constraint tbl0 buf0 1 10 2).getD emptyConstraint) rfl).1

/-- `rgd::ConsMeta` (task.h).  `comparison` is an `Option` because the
source fills it from `comparisons[i]`, a vector which `construct_task`
never populates: an out-of-bounds read, modelled as `none`. -/
structure ConsMeta where
  input_args : List (Bool × Nat)
  comparison : Option RKind
  i2s_candidates : List (Nat × Nat)

/-- the state threaded through `SearchTask::finalize`: the global symbol
map and the task-level `inputs`, `shapes`, `cmap` and `atoi_info` fields
it fills. -/
structure FinState where
  sym_map : List (Nat × Nat)
  inputs : List (Nat × Nat)
  shapes : List (Nat × Nat)
  cmap : List (Nat × List Nat)
  atoi : List (Nat × (Nat × Nat × Nat))

/-- `rgd::SearchTask` (task.h); `scratch_len` models the size of the
`scratch_args` allocation (the search-state vectors, statistics and
solution fields play no part in any claim and are omitted). -/
structure SearchTask where
  constraints : List Constraint
  comparisons : List RKind
  consmeta : List ConsMeta
  inputs : List (Nat × Nat)
  shapes : List (Nat × Nat)
  cmap : List (Nat × List Nat)
  atoi_info : List (Nat × (Nat × Nat × Nat))
  max_const_num : Nat
  scratch_len : Nat

def emptyTask : SearchTask := ⟨[], [], [], [], [], [], [], 0, 0⟩

/-- first-sight handling of an offset in `finalize`: a hit in `sym_map`
returns the existing global index; a miss assigns the next slot of the
task's `inputs`, copying initial byte and shape from the constraint. -/
def finTouch (ci : Constraint) (fs : FinState) (offset : Nat) : Nat × FinState :=
  match fs.sym_map.lookup offset with
  | some g => (g, fs)
  | none =>
    let g := fs.inputs.length
    (g, { fs with
            sym_map := (offset, g) :: fs.sym_map,
            inputs := fs.inputs ++ [(offset, (ci.inputs.lookup offset).getD 0)],
            shapes := setAssoc offset ((ci.shapes.lookup offset).getD 0) fs.shapes })

/-- append constraint index `i` to the `cmap` entry of global index `g`. -/
def cmapAdd (g i : Nat) (cm : List (Nat × List Nat)) : List (Nat × List Nat) :=
  match cm.lookup g with
  | some l => setAssoc g (l ++ [i]) cm
  | none => cm ++ [(g, [i])]

/-- the per-offset loop of `finalize` over a constraint's ordered
`local_map`: assign global indices, extend `cmap` (unless the constraint
is a memcmp), rewrite the local argument slot to the global index, and
detect runs of consecutive offsets for `i2s_candidates`.  `last_offset`
starts as the uint32 sentinel 4294967295 (`-1` in the source); the run
start `last_offset + 1 - size` is computed in uint32 arithmetic. -/
def finInner (ci : Constraint) (i : Nat) (skip : Bool) :
    List (Nat × Nat) → FinState → List (Bool × Nat) → List (Nat × Nat) → Nat → Nat →
    FinState × List (Bool × Nat) × List (Nat × Nat) × Nat × Nat
  | [], fs, args, i2s, lastOff, size => (fs, args, i2s, lastOff, size)
  | (offset, lidx) :: rest, fs, args, i2s, lastOff, size =>
    let t := finTouch ci fs offset
    let fs2 := if skip then t.2 else { t.2 with cmap := cmapAdd t.1 i t.2.cmap }
    let args1 := args.set lidx ((args.getD lidx (false, 0)).1, t.1)
    let next := if lastOff ≠ 4294967295 ∧ lastOff + 1 ≠ offset
      then (i2s ++ [((lastOff + 1 + 4294967296 - size) % 4294967296, size)], 0)
      else (i2s, size)
    finInner ci i skip rest fs2 args1 next.1 offset (next.2 + 1)

/-- the atoi aggregation loop of `finalize`; the source's `assert` that an
already-present entry matches is modelled as `none` on failure (the
dependency check against `cmap` only prints a warning and is stateless). -/
def atoiLoop : List (Nat × (Nat × Nat × Nat)) → FinState → Option FinState
  | [], fs => some fs
  | (offset, ainfo) :: rest, fs =>
    match fs.atoi.lookup offset with
    | some old =>
      if old = ainfo then atoiLoop rest { fs with atoi := setAssoc offset ainfo fs.atoi }
      else none
    | none => atoiLoop rest { fs with atoi := setAssoc offset ainfo fs.atoi }

/-- one iteration of the outer loop of `finalize`: build the ConsMeta of
constraint `i` (its comparison read from the possibly-too-short
`comparisons` vector), run the per-offset loop, push the final i2s run,
and process the constraint's atoi info. -/
def finCons (comparisons : List RKind) (ci : Constraint) (i : Nat) (fs : FinState) :
    Option (FinState × ConsMeta) :=
  let cmp := comparisons.get? i
  let skip := decide (cmp = some RKind.Memcmp ∨ cmp = some RKind.MemcmpN)
  let r := finInner ci i skip ci.local_map fs ci.input_args [] 4294967295 0
  let i2sF := r.2.2.1 ++ [((r.2.2.2.1 + 1 + 4294967296 - r.2.2.2.2) % 4294967296, r.2.2.2.2)]
  match atoiLoop ci.atoi_info r.1 with
  | none => none
  | some fs2 => some (fs2, ⟨r.2.1, cmp, i2sF⟩)

/-- the outer loop of `finalize` over all constraints, accumulating the
consmeta vector and `max_const_num`. -/
def finLoop (comparisons : List RKind) :
    List Constraint → Nat → FinState → List ConsMeta → Nat →
    Option (FinState × List ConsMeta × Nat)
  | [], _, fs, metas, mx => some (fs, metas, mx)
  | ci :: rest, i, fs, metas, mx =>
    match finCons comparisons ci i fs with
    | none => none
    | some (fs1, cm) =>
      finLoop comparisons rest (i+1) fs1 (metas ++ [cm]) (Nat.max mx ci.const_num)

/-- `SearchTask::finalize` (task.h): aggregate all constraints into the
task-level global symbol map, inputs, shapes, cmap and atoi info, build
the per-constraint metadata, and record the scratch-array size
`2 + |inputs| + max_const_num + 1`. -/
def SearchTask.finalize (t : SearchTask) : Option SearchTask :=
  match finLoop t.comparisons t.constraints 0
      ⟨[], t.inputs, t.shapes, t.cmap, t.atoi_info⟩ t.consmeta t.max_const_num with
  | none => none
  | some (fs, metas, mx) =>
    some { t with
        inputs := fs.inputs, shapes := fs.shapes, cmap := fs.cmap,
        atoi_info := fs.atoi, consmeta := metas, max_const_num := mx,
        scratch_len := 2 + fs.inputs.length + mx + 1 }

/-- the per-leaf loop of `construct_task` (symsan.cpp): a cache hit reuses
the shared Constraint unchanged (writing neither the comparison nor the
root kind); a miss parses the label, writes the post-NNF kind into the
fresh constraint's `comparison` field and root AST, and caches it.  A
failed parse is `none` (the source would dereference a null pointer). -/
def constructLoop (tbl : Nat → LabelInfo) (buf : List Nat) (bs fuel : Nat) :
    List (RKind × Nat) → List Constraint → List (Nat × Constraint) →
    Option (List Constraint × List (Nat × Constraint))
  | [], acc, cache => some (acc, cache)
  | (kind, label) :: rest, acc, cache =>
    match cache.lookup label with
    | some c => constructLoop tbl buf bs fuel rest (acc ++ [c]) cache
    | none =>
      match parse_constraint tbl buf bs fuel label with
      | none => none
      | some c0 =>
        let c1 := { c0 with comparison := kind, ast := c0.ast.withKind kind }
        constructLoop tbl buf bs fuel rest (acc ++ [c1]) (cache ++ [(label, c1)])

/-- `construct_task` (symsan.cpp): build the constraint list of one DNF
clause against the expression cache, then finalize the task.  Note that
the task's `comparisons` vector is left empty, exactly as in the source. -/
def construct_task (tbl : Nat → LabelInfo) (buf : List Nat) (bs fuel : Nat)
    (clause : List (RKind × Nat)) (cache : List (Nat × Constraint)) :
    Option (SearchTask × List (Nat × Constraint)) :=
  match constructLoop tbl buf bs fuel clause [] cache with
  | none => none
  | some (cs, cache1) =>
    match SearchTask.finalize { emptyTask with constraints := cs } with
    | none => none
    | some t => some (t, cache1)

/-- label table with two overlapping reads of offset 0: labels 1..3 encode
`load4(input[0..4]) == 99` (shape 4 at offset 0), labels 4..5 encode
`load1(input[0]) == 7` (shape 1 at offset 0). -/
def tbl4 : Nat → LabelInfo := fun n =>
  if n = 1 then ⟨.dterm, 8, 0, 0, 0, 0⟩
  else if n = 2 then ⟨.dload, 32, 1, 4, 0, 0⟩
  else if n = 3 then ⟨.dicmpeq, 1, 2, 0, 0, 99⟩
  else if n = 4 then ⟨.dload, 8, 1, 1, 0, 0⟩
  else if n = 5 then ⟨.dicmpeq, 1, 4, 0, 0, 7⟩
  else defaultInfo

def buf4 : List Nat := [10, 11, 12, 13]

/-- C8: the claim says the post-NNF comparison kind of a DNF-clause leaf is
written into the clause-local `ConsMeta.comparison` and into the root
AstNode of the Constraint, whether freshly parsed or reused from the
expression cache.  On this code it is not: `construct_task` never appends
to `task->comparisons`, so `finalize` fills `ConsMeta.comparison` from an
out-of-bounds `comparisons[i]` read (modelled as `none`), and on a cache
hit neither the `comparison` field nor the root kind of the reused
Constraint is re-tagged.  Concretely: after `(Equal, label 2)` is parsed
and cached, building the clause `[(Distinct, label 2)]` produces a task
whose `comparisons` vector is empty, whose ConsMeta carries no comparison,
and whose sole constraint still carries `Equal` in both the `comparison`
field and the root AST — the post-NNF kind `Distinct` is written
nowhere. -/
theorem claim8_comparison_not_written :
    ((construct_task tbl0 buf0 1 20 [(RKind.Distinct, 2)]
        (((construct_task tbl0 buf0 1 20 [(RKind.Equal, 2)] []).map Prod.snd).getD [])).map
      (fun r => (r.1.comparisons,
                 r.1.consmeta.map (fun cm => cm.comparison),
                 (r.1.constraints.getD 0 emptyConstraint).comparison,
                 ((r.1.constraints.getD 0 emptyConstraint).ast).kind)))
      = some ([], [none], RKind.Equal, RKind.Equal)
    ∧ RKind.Equal ≠ RKind.Distinct := by
  refine ⟨rfl, by decide⟩

/-- C4 counterexample to the shape-consistency part: in the task built
from the clause `load4(input[0..4]) == 99 ∧ load1(input[0]) == 7`, the
two constraints record different shapes for offset 0 (4 and 1); the
finalized task silently keeps the first (`task.shapes[0] = 4`), so the
shape at offset 0 is not consistent across the constraints referencing
it.  The remaining parts of the claim hold and are proved in the amended
theorem. -/
theorem claim4_counterexample :
    (construct_task tbl4 buf4 4 20 [(RKind.Equal, 3), (RKind.Equal, 5)] []).map
      (fun r => (r.1.shapes.lookup 0,
        (r.1.constraints.getD 0 emptyConstraint).shapes.lookup 0,
        (r.1.constraints.getD 1 emptyConstraint).shapes.lookup 0,
        (r.1.constraints.getD 1 emptyConstraint).local_map.map Prod.fst,
        r.1.inputs))
      = some (some 4, some 4, some 1,
              [0], [(0, 10), (1, 11), (2, 12), (3, 13)])
    ∧ (4 : Nat) ≠ 1 := by
  refine ⟨rfl, by decide⟩

lemma getD_set_ne {α : Type} (l : List α) (i j : Nat) (x d : α) (h : i ≠ j) :
    (l.set i x).getD j d = l.getD j d := by
  induction l generalizing i j with
  | nil => simp
  | cons a rest ih =>
    cases i with
    | zero =>
      cases j with
      | zero => exact absurd rfl h
      | succ j0 => rfl
    | succ i0 =>
      cases j with
      | zero => rfl
      | succ j0 =>
        simp only [List.set_cons_succ, List.getD_cons_succ]
        exact ih i0 j0 (fun he => h (by rw [he]))

lemma getD_set_self {α : Type} (l : List α) (i : Nat) (x d : α) (h : i < l.length) :
    (l.set i x).getD i d = x := by
  induction l generalizing i with
  | nil => simp at h
  | cons a rest ih =>
    cases i with
    | zero => rfl
    | succ i0 =>
      simp only [List.set_cons_succ, List.getD_cons_succ]
      exact ih i0 (Nat.lt_of_succ_lt_succ h)

/-- invariant of the finalize aggregation state: global indices are in
range of `inputs`, task-level input offsets are duplicate free, and the
symbol map and `inputs` record exactly the same offsets. -/
def FinStateInv (fs : FinState) : Prop :=
  (∀ p ∈ fs.sym_map, p.2 < fs.inputs.length)
  ∧ (fs.inputs.map Prod.fst).Nodup
  ∧ (∀ o, o ∈ fs.sym_map.map Prod.fst ↔ o ∈ fs.inputs.map Prod.fst)

lemma finStateInv_congr {fs fs2 : FinState} (h : FinStateInv fs)
    (hi : fs2.inputs = fs.inputs) (hs : fs2.sym_map = fs.sym_map) : FinStateInv fs2 := by
  unfold FinStateInv
  rw [hi, hs]
  exact h

lemma finTouch_spec (ci : Constraint) (fs : FinState) (offset : Nat) (h : FinStateInv fs) :
    FinStateInv (finTouch ci fs offset).2
    ∧ (finTouch ci fs offset).1 < (finTouch ci fs offset).2.inputs.length
    ∧ (∃ ext, (finTouch ci fs offset).2.inputs = fs.inputs ++ ext)
    ∧ (∀ o, o ∈ (finTouch ci fs offset).2.inputs.map Prod.fst
          ↔ (o ∈ fs.inputs.map Prod.fst ∨ o = offset)) := by
  obtain ⟨h1, h2, h3⟩ := h
  unfold finTouch
  cases hlook : fs.sym_map.lookup offset with
  | some g =>
    simp only
    have hmem : (offset, g) ∈ fs.sym_map := lookup_mem _ _ _ hlook
    have hkey : offset ∈ fs.inputs.map Prod.fst :=
      (h3 offset).mp (List.mem_map.mpr ⟨(offset, g), hmem, rfl⟩)
    refine ⟨⟨h1, h2, h3⟩, h1 _ hmem, ⟨[], by simp⟩, ?_⟩
    intro o
    constructor
    · intro ho; exact Or.inl ho
    · intro ho
      rcases ho with ho | ho
      · exact ho
      · subst ho; exact hkey
  | none =>
    simp only
    have hnot : offset ∉ fs.sym_map.map Prod.fst := (lookup_eq_none_iff _ _).mp hlook
    have hnoti : offset ∉ fs.inputs.map Prod.fst := fun hx => hnot ((h3 offset).mpr hx)
    refine ⟨⟨?_, ?_, ?_⟩, ?_, ?_, ?_⟩
    · intro p hp
      simp only [List.mem_cons] at hp
      rcases hp with hp | hp
      · subst hp
        simp only [List.length_append, List.length_singleton]
        omega
      · have := h1 p hp
        simp only [List.length_append, List.length_singleton]
        omega
    · simp only [List.map_append, List.map_cons, List.map_nil]
      rw [List.nodup_append]
      exact ⟨h2, List.nodup_singleton _, by simpa using hnoti⟩
    · intro o
      simp only [List.map_cons, List.mem_cons, List.map_append, List.map_nil,
        List.mem_append, List.mem_singleton, h3 o]
      tauto
    · simp only [List.length_append, List.length_singleton]
      omega
    · exact ⟨[(offset, (ci.inputs.lookup offset).getD 0)], rfl⟩
    · intro o
      simp only [List.map_append, List.map_cons, List.map_nil, List.mem_append,
        List.mem_singleton]

lemma finInner_spec (ci : Constraint) (idx : Nat) (skip : Bool) :
    ∀ (L : List (Nat × Nat)) (fs : FinState) (args : List (Bool × Nat))
      (i2s : List (Nat × Nat)) (lo sz : Nat),
      FinStateInv fs → (L.map Prod.snd).Nodup → (∀ p ∈ L, p.2 < args.length) →
      FinStateInv (finInner ci idx skip L fs args i2s lo sz).1
      ∧ (∃ ext, (finInner ci idx skip L fs args i2s lo sz).1.inputs = fs.inputs ++ ext)
      ∧ (∀ o, o ∈ (finInner ci idx skip L fs args i2s lo sz).1.inputs.map Prod.fst
            ↔ (o ∈ fs.inputs.map Prod.fst ∨ o ∈ L.map Prod.fst))
      ∧ (finInner ci idx skip L fs args i2s lo sz).2.1.length = args.length
      ∧ (∀ j, j ∉ L.map Prod.snd →
            (finInner ci idx skip L fs args i2s lo sz).2.1.getD j (false, 0)
              = args.getD j (false, 0))
      ∧ (∀ p ∈ L,
            ((finInner ci idx skip L fs args i2s lo sz).2.1.getD p.2 (false, 0)).1
              = (args.getD p.2 (false, 0)).1
            ∧ ((finInner ci idx skip L fs args i2s lo sz).2.1.getD p.2 (false, 0)).2
              < (finInner ci idx skip L fs args i2s lo sz).1.inputs.length) := by
  intro L
  induction L with
  | nil =>
    intro fs args i2s lo sz hfs _ _
    refine ⟨hfs, ⟨[], by simp [finInner]⟩, ?_, rfl, fun j _ => rfl, ?_⟩
    · intro o
      simp [finInner]
    · intro p hp
      exact absurd hp (List.not_mem_nil p)
  | cons hd rest ih =>
    intro fs args i2s lo sz hfs hnd hbnd
    rcases hd with ⟨offset, lidx⟩
    simp only [List.map_cons, List.nodup_cons] at hnd
    obtain ⟨hndh, hndr⟩ := hnd
    have hlidx : lidx < args.length := hbnd (offset, lidx) (List.mem_cons_self _ _)
    obtain ⟨ht1, ht2, ht3, ht4⟩ := finTouch_spec ci fs offset hfs
    rcases hT : finTouch ci fs offset with ⟨g, fsT⟩
    rw [hT] at ht1 ht2 ht3 ht4
    have hstep : finInner ci idx skip ((offset, lidx) :: rest) fs args i2s lo sz
        = finInner ci idx skip rest
            (if skip then fsT else { fsT with cmap := cmapAdd g idx fsT.cmap })
            (args.set lidx ((args.getD lidx (false, 0)).1, g))
            (if lo ≠ 4294967295 ∧ lo + 1 ≠ offset
             then (i2s ++ [((lo + 1 + 4294967296 - sz) % 4294967296, sz)], 0)
             else (i2s, sz)).1
            offset
            ((if lo ≠ 4294967295 ∧ lo + 1 ≠ offset
              then (i2s ++ [((lo + 1 + 4294967296 - sz) % 4294967296, sz)], 0)
              else (i2s, sz)).2 + 1) := by
      simp only [finInner, hT]
    rw [hstep]
    set fs2 := (if skip then fsT else { fsT with cmap := cmapAdd g idx fsT.cmap }) with hfs2def
    set args1 := args.set lidx ((args.getD lidx (false, 0)).1, g) with hargs1def
    have hfs2i : fs2.inputs = fsT.inputs := by
      rw [hfs2def]; cases skip <;> rfl
    have hfs2s : fs2.sym_map = fsT.sym_map := by
      rw [hfs2def]; cases skip <;> rfl
    have hfs2inv : FinStateInv fs2 := finStateInv_congr ht1 hfs2i hfs2s
    have hlen1 : args1.length = args.length := by rw [hargs1def, List.length_set]
    have hbnd1 : ∀ p ∈ rest, p.2 < args1.length := by
      intro p hp; rw [hlen1]; exact hbnd p (List.mem_cons_of_mem _ hp)
    obtain ⟨k1, ⟨ext2, k2⟩, k3, k4, k5, k6⟩ :=
      ih fs2 args1
        (if lo ≠ 4294967295 ∧ lo + 1 ≠ offset
         then (i2s ++ [((lo + 1 + 4294967296 - sz) % 4294967296, sz)], 0)
         else (i2s, sz)).1
        offset
        ((if lo ≠ 4294967295 ∧ lo + 1 ≠ offset
          then (i2s ++ [((lo + 1 + 4294967296 - sz) % 4294967296, sz)], 0)
          else (i2s, sz)).2 + 1)
        hfs2inv hndr hbnd1
    obtain ⟨ext1, hext1⟩ := ht3
    refine ⟨k1, ?_, ?_, ?_, ?_, ?_⟩
    · refine ⟨ext1 ++ ext2, ?_⟩
      rw [k2, hfs2i, hext1, List.append_assoc]
    · intro o
      rw [k3 o]
      have hmix : o ∈ fs2.inputs.map Prod.fst ↔ o ∈ fs.inputs.map Prod.fst ∨ o = offset := by
        rw [hfs2i]; exact ht4 o
      simp only [List.map_cons, List.mem_cons]
      rw [hmix]
      tauto
    · rw [k4, hlen1]
    · intro j hj
      simp only [List.map_cons, List.mem_cons] at hj
      push_neg at hj
      rw [k5 j hj.2]
      rw [hargs1def]
      exact getD_set_ne _ _ _ _ _ (Ne.symm hj.1)
    · intro p hp
      rcases List.mem_cons.mp hp with hp1 | hp1
      · subst hp1
        have h5 := k5 lidx hndh
        have hget : args1.getD lidx (false, 0) = ((args.getD lidx (false, 0)).1, g) := by
          rw [hargs1def]; exact getD_set_self _ _ _ _ hlidx
        rw [h5, hget]
        refine ⟨rfl, ?_⟩
        have hlt : g < fs2.inputs.length := by rw [hfs2i]; exact ht2
        have hlen2 := congrArg List.length k2
        rw [List.length_append] at hlen2
        omega
      · have h6 := k6 p hp1
        have hfst : (args1.getD p.2 (false, 0)).1 = (args.getD p.2 (false, 0)).1 := by
          by_cases hpe : lidx = p.2
          · have hg : args1.getD p.2 (false, 0) = ((args.getD lidx (false, 0)).1, g) := by
              rw [hargs1def, ← hpe]; exact getD_set_self _ _ _ _ hlidx
            rw [hg, ← hpe]
          · have hg : args1.getD p.2 (false, 0) = args.getD p.2 (false, 0) := by
              rw [hargs1def]; exact getD_set_ne _ _ _ _ _ hpe
            rw [hg]
        exact ⟨h6.1.trans hfst, h6.2⟩

lemma atoiLoop_fields :
    ∀ (l : List (Nat × (Nat × Nat × Nat))) (fs fs2 : FinState),
      atoiLoop l fs = some fs2 → fs2.inputs = fs.inputs ∧ fs2.sym_map = fs.sym_map := by
  intro l
  induction l with
  | nil =>
    intro fs fs2 h
    simp only [atoiLoop, Option.some.injEq] at h
    subst h
    exact ⟨rfl, rfl⟩
  | cons a rest ih =>
    intro fs fs2 h
    rcases a with ⟨offset, ainfo⟩
    simp only [atoiLoop] at h
    split at h
    · split at h
      · obtain ⟨hi, hs⟩ := ih _ _ h
        exact ⟨hi, hs⟩
      · exact absurd h (by simp)
    · obtain ⟨hi, hs⟩ := ih _ _ h
      exact ⟨hi, hs⟩

/-- per-task correctness of one ConsMeta relative to its Constraint:
equal argument-vector length, constant entries preserved verbatim, and
symbolic entries remapped to a global index below `n`. -/
def MetaOK (cm : ConsMeta) (ci : Constraint) (n : Nat) : Prop :=
  cm.input_args.length = ci.input_args.length
  ∧ ∀ j, j < ci.input_args.length →
      (((ci.input_args.getD j (false, 0)).1 = false →
          cm.input_args.getD j (false, 0) = ci.input_args.getD j (false, 0))
       ∧ ((ci.input_args.getD j (false, 0)).1 = true →
          (cm.input_args.getD j (false, 0)).1 = true
          ∧ (cm.input_args.getD j (false, 0)).2 < n))

lemma metaOK_mono {cm : ConsMeta} {ci : Constraint} {n m : Nat}
    (h : MetaOK cm ci n) (hnm : n ≤ m) : MetaOK cm ci m := by
  refine ⟨h.1, ?_⟩
  intro j hj
  refine ⟨(h.2 j hj).1, ?_⟩
  intro ht
  obtain ⟨ha, hb⟩ := (h.2 j hj).2 ht
  exact ⟨ha, lt_of_lt_of_le hb hnm⟩

lemma finCons_spec (comparisons : List RKind) (ci : Constraint) (i : Nat)
    (fs : FinState) (out : FinState × ConsMeta)
    (hfs : FinStateInv fs) (hci : ConsInv ci)
    (h : finCons comparisons ci i fs = some out) :
    FinStateInv out.1
    ∧ (∃ ext, out.1.inputs = fs.inputs ++ ext)
    ∧ (∀ o, o ∈ out.1.inputs.map Prod.fst
          ↔ (o ∈ fs.inputs.map Prod.fst ∨ o ∈ ci.local_map.map Prod.fst))
    ∧ MetaOK out.2 ci out.1.inputs.length := by
  obtain ⟨c1, c2, c3, c4, c5, c6, c7, c8⟩ := hci
  have hbnd : ∀ p ∈ ci.local_map, p.2 < ci.input_args.length := c2
  obtain ⟨k1, ⟨ext, k2⟩, k3, k4, k5, k6⟩ :=
    finInner_spec ci i
      (decide (comparisons.get? i = some RKind.Memcmp ∨ comparisons.get? i = some RKind.MemcmpN))
      ci.local_map fs ci.input_args [] 4294967295 0 hfs c3 hbnd
  simp only [finCons] at h
  split at h
  · exact absurd h (by simp)
  · rename_i fs2 hatoi
    obtain ⟨hai, has⟩ := atoiLoop_fields _ _ _ hatoi
    cases h
    refine ⟨finStateInv_congr k1 hai has, ⟨ext, by rw [hai, k2]⟩, ?_, ?_⟩
    · intro o
      have : fs2.inputs.map Prod.fst = _ := congrArg (List.map Prod.fst) hai
      rw [this]
      exact k3 o
    · show MetaOK _ ci fs2.inputs.length
      rw [hai]
      refine ⟨k4, ?_⟩
      intro j hj
      constructor
      · intro hf
        have hnot : j ∉ ci.local_map.map Prod.snd := by
          intro hmem
          have htr := (c5 j hj).mpr hmem
          rw [htr] at hf
          exact absurd hf (by decide)
        exact k5 j hnot
      · intro htru
        have hmem : j ∈ ci.local_map.map Prod.snd := (c5 j hj).mp htru
        rcases List.mem_map.mp hmem with ⟨p, hp, hpj⟩
        have h6 := k6 p hp
        rw [hpj] at h6
        refine ⟨?_, h6.2⟩
        rw [h6.1]
        exact htru

lemma finLoop_spec (comparisons : List RKind) :
    ∀ (cs : List Constraint) (i : Nat) (fs : FinState) (metas : List ConsMeta)
      (mx : Nat) (out : FinState × List ConsMeta × Nat),
      FinStateInv fs → (∀ ci ∈ cs, ConsInv ci) →
      finLoop comparisons cs i fs metas mx = some out →
      FinStateInv out.1
      ∧ (∃ ext, out.1.inputs = fs.inputs ++ ext)
      ∧ (∀ o, o ∈ out.1.inputs.map Prod.fst
            ↔ (o ∈ fs.inputs.map Prod.fst ∨ ∃ ci ∈ cs, o ∈ ci.local_map.map Prod.fst))
      ∧ (∃ newMetas, out.2.1 = metas ++ newMetas
          ∧ List.Forall₂ (fun cm ci => MetaOK cm ci out.1.inputs.length) newMetas cs) := by
  intro cs
  induction cs with
  | nil =>
    intro i fs metas mx out hfs _ h
    simp only [finLoop, Option.some.injEq] at h
    subst h
    refine ⟨hfs, ⟨[], by simp⟩, ?_, ⟨[], by simp, List.Forall₂.nil⟩⟩
    intro o
    simp
  | cons ci rest ih =>
    intro i fs metas mx out hfs hall h
    simp only [finLoop] at h
    split at h
    · exact absurd h (by simp)
    · rename_i fs1 cm hcons
      obtain ⟨j1, ⟨ext1, j2⟩, j3, j4⟩ :=
        finCons_spec comparisons ci i fs (fs1, cm) hfs
          (hall ci (List.mem_cons_self _ _)) hcons
      obtain ⟨m1, ⟨ext2, m2⟩, m3, ⟨nm, hnm1, hnm2⟩⟩ :=
        ih (i+1) fs1 (metas ++ [cm]) (Nat.max mx ci.const_num) out j1
          (fun c hc => hall c (List.mem_cons_of_mem _ hc)) h
    -- compose
      have hle : fs1.inputs.length ≤ out.1.inputs.length := by
        have := congrArg List.length m2
        rw [List.length_append] at this
        omega
      refine ⟨m1, ?_, ?_, ?_⟩
      · exact ⟨ext1 ++ ext2, by rw [m2, j2, List.append_assoc]⟩
      · intro o
        rw [m3 o]
        have hj3 := j3 o
        simp only [List.mem_cons, exists_eq_or_imp]
        tauto
      · refine ⟨cm :: nm, ?_, ?_⟩
        · rw [hnm1, List.append_assoc]
          rfl
        · refine List.Forall₂.cons ?_ hnm2
          exact metaOK_mono (by simpa using j4) hle

/-- C4 amended: after `SearchTask::finalize()` on a freshly constructed
task whose constraints come from the lifter, every input offset referenced
by any constraint appears exactly once in `task.inputs`; every symbolic
entry `(true, g)` of every ConsMeta satisfies `g < |task.inputs|` (with
its symbolic flag preserved); and every constant entry `(false, v)` still
carries the original immediate.  The shape-consistency part of the
original claim is dropped: `finalize` records only the shape of the first
constraint referencing an offset, and constraints with different read
widths at the same offset can disagree (see the counterexample). -/
theorem claim4_amended (t out : SearchTask)
    (hc : ∀ ci ∈ t.constraints, ConsInv ci)
    (hi : t.inputs = []) (hm : t.consmeta = [])
    (hfin : t.finalize = some out) :
    (out.inputs.map Prod.fst).Nodup
    ∧ (∀ off, off ∈ out.inputs.map Prod.fst
          ↔ ∃ ci ∈ t.constraints, off ∈ ci.local_map.map Prod.fst)
    ∧ List.Forall₂ (fun cm ci => MetaOK cm ci out.inputs.length)
        out.consmeta t.constraints := by
  simp only [SearchTask.finalize] at hfin
  split at hfin
  · exact absurd hfin (by simp)
  · rename_i fs metas mx hloop
    have hfs0 : FinStateInv ⟨[], t.inputs, t.shapes, t.cmap, t.atoi_info⟩ := by
      refine ⟨by simp, ?_, ?_⟩
      · rw [hi]; exact List.nodup_nil
      · intro o
        rw [hi]
    obtain ⟨m1, _, m3, ⟨nm, hnm1, hnm2⟩⟩ :=
      finLoop_spec t.comparisons t.constraints 0
        ⟨[], t.inputs, t.shapes, t.cmap, t.atoi_info⟩ t.consmeta t.max_const_num
        (fs, metas, mx) hfs0 hc hloop
    cases hfin
    refine ⟨m1.2.1, ?_, ?_⟩
    · intro off
      rw [m3 off]
      rw [hi]
      simp
    · have hmetas : metas = nm := by simpa [hm] using hnm1
      show List.Forall₂ _ metas _
      rw [hmetas]
      exact hnm2

/-- C4 witness: the amended statement applied to the concrete finalized
task built from the `input[0] == 5` constraint. -/
theorem claim4_witness :
    ((((SearchTask.finalize
        { emptyTask with
            constraints := [(parse_constraint tbl0 buf0 1 10 2).getD emptyConstraint] }).getD
      emptyTask)).inputs.map Prod.fst).Nodup :=
  (claim4_amended
    { emptyTask with
        constraints := [(parse_constraint tbl0 buf0 1 10 2).getD emptyConstraint] }
    ((SearchTask.finalize
        { emptyTask with
            constraints := [(parse_constraint tbl0 buf0 1 10 2).getD emptyConstraint] }).getD
      emptyTask)
    (by
      intro ci hci
      simp only [List.mem_singleton] at hci
      subst hci
      refine ⟨by decide, by decide, by decide, by decide, ?_, by decide, by decide, by decide⟩
      decide)
    rfl rfl rfl).1

/-- `mutation_state_t` from symsan.cpp. -/
inductive MutState where
  | invalid | inValidation | validated
deriving DecidableEq, Repr

/-- a recorded branch context.
Modelled from the spec: `rgd::BranchContext` is declared in cov.h, which is
not under src/; the spec lists its fields. -/
structure BranchCtx where
  addr : Nat
  bid : Nat
  context : Nat
  direction : Bool
deriving DecidableEq, Repr

/-- the driver state of `my_mutator_t` that the callbacks read and write:
the current task and solver indices, the mutation state, the current queue
entry, the FIFO task queue, the set of already-traced queue-entry ids, and
the coverage state.  Tasks and queue entries are identified by numbers;
buffers are byte lists. -/
structure DState where
  curTask : Option Nat
  curSolverIndex : Nat
  curSolverStage : Nat
  curMutationState : MutState
  curQueueEntry : Nat
  queue : List Nat
  fuzzedInputs : List Nat
  covState : List BranchCtx
deriving DecidableEq, Repr

/-- result of one `solve` call (`rgd::Solver` is out of scope; the driver
only branches on this value).  `sat` carries the mutated output buffer. -/
inductive SolverResult where
  | sat (out : List Nat)
  | unsat
  | timeout
  | unknown
deriving DecidableEq, Repr

/-- step 1 of `afl_custom_fuzz`: if there is no current task or the last
mutation was validated, pop the next task (returning the input unchanged
on an empty queue, `false`) and reset solver index, stage and mutation
state. -/
def fuzzTake (st : DState) : DState × Bool :=
  if st.curTask = none ∨ st.curMutationState = MutState.validated then
    match st.queue with
    | [] => ({ st with curTask := none }, false)
    | t :: rest =>
      ({ st with curTask := some t, queue := rest,
                 curSolverIndex := 0, curSolverStage := 0,
                 curMutationState := MutState.invalid }, true)
  else (st, true)

/-- steps 2 and 3 of `afl_custom_fuzz`: a still-in-validation state means
the previous candidate silently failed, so bump the stage; a stage past
the current solver's stage count advances to the next solver, and past the
last solver pops the next task (returning the input unchanged on an empty
queue).  `solvers` is the list of per-solver stage counts. -/
def fuzzAdvance (solvers : List Nat) (st : DState) : DState × Bool :=
  let st1 := if st.curMutationState = MutState.inValidation
    then { st with curSolverStage := st.curSolverStage + 1 } else st
  if st1.curSolverStage ≥ solvers.getD st1.curSolverIndex 0 then
    let st2 := { st1 with curSolverIndex := st1.curSolverIndex + 1 }
    if st2.curSolverIndex ≥ solvers.length then
      match st2.queue with
      | [] => ({ st2 with curTask := none }, false)
      | t :: rest =>
        ({ st2 with curTask := some t, queue := rest,
                    curSolverIndex := 0, curSolverStage := 0 }, true)
    else ({ st2 with curSolverStage := 0 }, true)
  else (st1, true)

def fuzzPrep (solvers : List Nat) (st : DState) : DState × Bool :=
  match fuzzTake st with
  | (st1, false) => (st1, false)
  | (st1, true) => fuzzAdvance solvers st1

/-- `afl_custom_fuzz` (symsan.cpp): run the preparation steps, then call
`solve(stage, cur_task, ...)` — represented by the oracle, a function of
solver index, stage and task id — and branch on the result: SAT returns
the solver's output buffer and enters validation; TIMEOUT keeps the input
and bumps the stage; UNSAT drops the task and keeps the input; anything
else returns a zero-size buffer. -/
def afl_custom_fuzz (solvers : List Nat) (oracle : Nat → Nat → Nat → SolverResult)
    (st : DState) (input : List Nat) : DState × List Nat :=
  match fuzzPrep solvers st with
  | (st1, false) => (st1, input)
  | (st1, true) =>
    match oracle st1.curSolverIndex st1.curSolverStage (st1.curTask.getD 0) with
    | .sat out => ({ st1 with curMutationState := MutState.inValidation }, out)
    | .timeout =>
      ({ st1 with curMutationState := MutState.invalid, curSolverStage := st1.curSolverStage + 1 }, input)
    | .unsat => ({ st1 with curTask := none }, input)
    | .unknown => (st1, [])

/-- `afl_custom_queue_new_entry` (symsan.cpp): promote the mutation state
to validated exactly when the reported original queue entry is the current
one and the state is in-validation. -/
def afl_custom_queue_new_entry (st : DState) (orig : Nat) : DState :=
  if st.curQueueEntry = orig ∧ st.curMutationState = MutState.inValidation
  then { st with curMutationState := MutState.validated } else st

/-- C5: whenever the solve call inside `fuzz` returns UNSAT, the driver
drops the task (`cur_task = null`) and returns the input buffer unchanged
(same bytes, same size); the next `fuzz` call then pops the next task from
the queue, and returns the input unchanged if the queue is empty. -/
theorem claim5_unsat_drops_task (solvers : List Nat)
    (oracle : Nat → Nat → Nat → SolverResult) (st st1 : DState) (input : List Nat)
    (hprep : fuzzPrep solvers st = (st1, true))
    (hun : oracle st1.curSolverIndex st1.curSolverStage (st1.curTask.getD 0)
            = SolverResult.unsat) :
    afl_custom_fuzz solvers oracle st input = ({ st1 with curTask := none }, input)
    ∧ (∀ input2 : List Nat, st1.queue = [] →
        afl_custom_fuzz solvers oracle { st1 with curTask := none } input2
          = ({ st1 with curTask := none }, input2))
    ∧ (∀ t rest, st1.queue = t :: rest →
        fuzzTake { st1 with curTask := none }
          = ({ st1 with curTask := some t, queue := rest, curSolverIndex := 0,
                        curSolverStage := 0, curMutationState := MutState.invalid }, true)) := by
  refine ⟨?_, ?_, ?_⟩
  · unfold afl_custom_fuzz
    rw [hprep]
    simp only
    rw [hun]
  · intro input2 hq
    unfold afl_custom_fuzz fuzzPrep fuzzTake
    simp [hq]
  · intro t rest hq
    unfold fuzzTake
    simp [hq]

/-- C5 witness: a concrete one-solver driver state where solve reports
UNSAT on stage 0. -/
theorem claim5_witness :
    afl_custom_fuzz [2] (fun _ _ _ => SolverResult.unsat)
        ⟨some 7, 0, 0, MutState.invalid, 0, [8], [], []⟩ [1, 2, 3]
      = ({ (⟨some 7, 0, 0, MutState.invalid, 0, [8], [], []⟩ : DState) with curTask := none },
         [1, 2, 3]) :=
  (claim5_unsat_drops_task [2] (fun _ _ _ => SolverResult.unsat)
    ⟨some 7, 0, 0, MutState.invalid, 0, [8], [], []⟩
    ⟨some 7, 0, 0, MutState.invalid, 0, [8], [], []⟩ [1, 2, 3] rfl rfl).1

/-- C6: `queue_new_entry` moves the mutation state from IN_VALIDATION to
VALIDATED exactly when the original-queue-entry argument equals the
driver's current queue entry and the state is IN_VALIDATION (otherwise the
state is unchanged); the following `fuzz` call then pops a new task and
resets the solver index and stage. -/
theorem claim6_validation_promotion (solvers : List Nat) (st : DState) (orig : Nat) :
    (st.curMutationState = MutState.inValidation → st.curQueueEntry = orig →
        afl_custom_queue_new_entry st orig
          = { st with curMutationState := MutState.validated })
    ∧ (¬(st.curQueueEntry = orig ∧ st.curMutationState = MutState.inValidation) →
        afl_custom_queue_new_entry st orig = st)
    ∧ (∀ t rest, st.curMutationState = MutState.inValidation → st.curQueueEntry = orig →
        st.queue = t :: rest → 1 ≤ solvers.getD 0 0 →
        fuzzPrep solvers (afl_custom_queue_new_entry st orig)
          = ({ st with curMutationState := MutState.invalid, curTask := some t,
                       queue := rest, curSolverIndex := 0, curSolverStage := 0 }, true)) := by
  refine ⟨?_, ?_, ?_⟩
  · intro hv he
    unfold afl_custom_queue_new_entry
    simp [hv, he]
  · intro hn
    unfold afl_custom_queue_new_entry
    simp only [ite_eq_right_iff]
    intro hcontra
    exact absurd hcontra hn
  · intro t rest hv he hq hst
    unfold afl_custom_queue_new_entry
    simp only [hv, he, and_self, if_true]
    unfold fuzzPrep fuzzTake fuzzAdvance
    have hlt : ¬ ((0 : Nat) ≥ solvers.getD 0 0) := by omega
    simp only [hq]
    simp [hlt]
    intro h0
    exfalso
    rw [List.getD_eq_getElem?_getD] at hst
    omega

/-- C6 witness: a concrete in-validation state whose candidate is promoted
by `queue_new_entry(new, orig)` with `orig` the current queue entry, after
which `fuzz`'s preparation pops task 3 and resets the solver indices. -/
theorem claim6_witness :
    fuzzPrep [2]
        (afl_custom_queue_new_entry
          ⟨some 5, 1, 1, MutState.inValidation, 9, [3], [], []⟩ 9)
      = ({ (⟨some 5, 1, 1, MutState.inValidation, 9, [3], [], []⟩ : DState) with
            curMutationState := MutState.invalid, curTask := some 3, queue := [],
            curSolverIndex := 0, curSolverStage := 0 }, true) :=
  (claim6_validation_promotion [2]
    ⟨some 5, 1, 1, MutState.inValidation, 9, [3], [], []⟩ 9).2.2 3 [] rfl rfl rfl
    (by decide)

/-- message types of the tracer pipe protocol (spec section 6). -/
inductive MsgType where
  | condT | gepT | memcmpT | fsizeT
deriving DecidableEq, Repr

/-- one `pipe_msg` record (the fields the condition handler reads). -/
structure PipeMsg where
  msg_type : MsgType
  addr : Nat
  context : Nat
  bid : Nat
  label : Nat
  result : Nat
deriving DecidableEq, Repr

/-- Modelled from the spec: `CovManager::add_branch` (cov.h/cc, not under
src/) records the taken branch and returns its context handle. -/
def add_branch (cov : List BranchCtx) (ctx : BranchCtx) : BranchCtx × List BranchCtx :=
  (ctx, ctx :: cov)

/-- Modelled from the spec: `CovManager::is_branch_interesting` (cov.h/cc,
not under src/) is true when the (pc, context, direction) tuple has not
been covered yet. -/
def is_branch_interesting (cov : List BranchCtx) (ctx : BranchCtx) : Bool :=
  !(cov.contains ctx)

/-- observable effects of the condition handler, for frame-effect claims:
a branch was recorded, the coverage manager was queried, tasks were
enqueued. -/
inductive CEvent where
  | addedBranch | queried | enqueued (n : Nat)
deriving DecidableEq, Repr

/-- `handle_cond` (symsan.cpp): a zero label returns immediately;
otherwise the branch is recorded, the negated context is tested for
interestingness, and if interesting the constructed tasks are enqueued.
`tasksOf` abstracts `construct_tasks` (direction and label to task ids);
the second component logs the performed effects. -/
def handle_cond (tasksOf : Bool → Nat → List Nat) (msg : PipeMsg) (st : DState) :
    DState × List CEvent :=
  if msg.label = 0 then (st, [])
  else
    let r := add_branch st.covState ⟨msg.addr, msg.bid, msg.context, msg.result ≠ 0⟩
    let negCtx : BranchCtx := { r.1 with direction := !r.1.direction }
    let st1 := { st with covState := r.2 }
    if is_branch_interesting r.2 negCtx then
      let ts := tasksOf negCtx.direction msg.label
      ({ st1 with queue := st1.queue ++ ts },
       [CEvent.addedBranch, CEvent.queried, CEvent.enqueued ts.length])
    else (st1, [CEvent.addedBranch, CEvent.queried])

/-- `afl_custom_fuzz_count` (symsan.cpp): refuse to reprocess an
already-seen queue-entry id (return 0 without spawning the tracer);
otherwise record the id and the queue entry name, spawn the tracer
(third result component), process the message stream (conditions feed
`handle_cond`; the other message types do not touch the driver state
modelled here), clear the current task, and return
`pending_tasks * total_stages`. -/
def afl_custom_fuzz_count (tasksOf : Bool → Nat → List Nat) (trace : List PipeMsg)
    (st : DState) (inputId entryName stagesTotal : Nat) : DState × Nat × Bool :=
  if st.fuzzedInputs.contains inputId then (st, 0, false)
  else
    let st1 := { st with fuzzedInputs := inputId :: st.fuzzedInputs,
                         curQueueEntry := entryName }
    let st2 := trace.foldl
      (fun s m => match m.msg_type with
        | MsgType.condT => (handle_cond tasksOf m s).1
        | _ => s) st1
    let st3 := { st2 with curTask := none }
    (st3, st3.queue.length * stagesTotal, true)

/-- C10: a cond-type pipe message whose label is 0 makes the condition
handler return immediately: the coverage state and the task queue are
unchanged and no effect (branch recording, interestingness query, task
enqueue) is performed. -/
theorem claim10_zero_label_no_effect (tasksOf : Bool → Nat → List Nat)
    (msg : PipeMsg) (st : DState) (h : msg.label = 0) :
    handle_cond tasksOf msg st = (st, []) := by
  unfold handle_cond
  rw [if_pos h]

/-- C10 witness: the zero-label early return on a concrete message and
state. -/
theorem claim10_witness :
    handle_cond (fun _ _ => [1, 2]) ⟨MsgType.condT, 100, 3, 4, 0, 1⟩
        ⟨none, 0, 0, MutState.invalid, 0, [5], [6], [⟨1, 2, 3, true⟩]⟩
      = (⟨none, 0, 0, MutState.invalid, 0, [5], [6], [⟨1, 2, 3, true⟩]⟩, []) :=
  claim10_zero_label_no_effect (fun _ _ => [1, 2]) ⟨MsgType.condT, 100, 3, 4, 0, 1⟩
    ⟨none, 0, 0, MutState.invalid, 0, [5], [6], [⟨1, 2, 3, true⟩]⟩ rfl

lemma handle_cond_fuzzedInputs (tasksOf : Bool → Nat → List Nat)
    (msg : PipeMsg) (st : DState) :
    (handle_cond tasksOf msg st).1.fuzzedInputs = st.fuzzedInputs := by
  unfold handle_cond
  split
  · rfl
  · simp only
    split <;> rfl

lemma foldl_trace_fuzzedInputs (tasksOf : Bool → Nat → List Nat) :
    ∀ (trace : List PipeMsg) (st : DState),
      (trace.foldl
        (fun s m => match m.msg_type with
          | MsgType.condT => (handle_cond tasksOf m s).1
          | _ => s) st).fuzzedInputs = st.fuzzedInputs := by
  intro trace
  induction trace with
  | nil => intro st; rfl
  | cons m rest ih =>
    intro st
    simp only [List.foldl_cons]
    rw [ih]
    cases hm : m.msg_type <;> simp [hm, handle_cond_fuzzedInputs]

lemma fuzz_count_seen (tasksOf : Bool → Nat → List Nat) (trace : List PipeMsg)
    (s : DState) (inputId entry stg : Nat)
    (h : s.fuzzedInputs.contains inputId = true) :
    afl_custom_fuzz_count tasksOf trace s inputId entry stg = (s, 0, false) := by
  unfold afl_custom_fuzz_count
  rw [if_pos h]

/-- C7: a second `fuzz_count` call with the same queue-entry id in one
driver lifetime returns 0 without spawning a tracer and without changing
the driver state (in particular, without enqueuing any task): the
`fuzzed_inputs` set guarantees each id is traced at most once. -/
theorem claim7_fuzz_count_idempotent (tasksOf : Bool → Nat → List Nat)
    (trace1 trace2 : List PipeMsg) (st : DState)
    (inputId entry1 entry2 stg1 stg2 : Nat) :
    afl_custom_fuzz_count tasksOf trace2
        (afl_custom_fuzz_count tasksOf trace1 st inputId entry1 stg1).1
        inputId entry2 stg2
      = ((afl_custom_fuzz_count tasksOf trace1 st inputId entry1 stg1).1, 0, false) := by
  rcases Bool.eq_false_or_eq_true (st.fuzzedInputs.contains inputId) with hmem | hmem
  · have h1 : afl_custom_fuzz_count tasksOf trace1 st inputId entry1 stg1 = (st, 0, false) :=
      fuzz_count_seen _ _ _ _ _ _ hmem
    rw [h1]
    exact fuzz_count_seen _ _ _ _ _ _ hmem
  · have hstate : (afl_custom_fuzz_count tasksOf trace1 st inputId entry1 stg1).1.fuzzedInputs
        = inputId :: st.fuzzedInputs := by
      unfold afl_custom_fuzz_count
      rw [if_neg (by intro hh; rw [hmem] at hh; exact absurd hh (by decide))]
      simp only
      rw [foldl_trace_fuzzedInputs]
    refine fuzz_count_seen _ _ _ _ _ _ ?_
    rw [hstate]
    simp
